import Mathlib

set_option linter.unusedVariables false

/-!
Verification of the B1B daemon core (bonding mode-1 bridge helper)

Shallow embedding of the C sources (`garp.c`, `fdbtree.c`, `bridge.c`,
`ovs.c`, `bond.c`, `netlink.c`) into Lean 4, together with theorems that
settle the frozen claims about the natural-language specification.

Modelling conventions:
* machine integers are `Nat` (unsigned) or `Int` (signed), with explicit
  `% 256`, `% 65536`, ... where the C code truncates;
* frames and buffers are `List Nat` of byte values;
* the host byte order is a parameter `hostLE : Bool` wherever the C code
  stores a multi-byte value without `htons` (the `B1B_HTONS` macro itself
  always produces network byte order, so fields initialised with it are
  serialised big-endian regardless of the host);
* external collaborators (libc `qsort`/`bsearch`, the `savl` AVL library,
  `json-c`) are modelled from their documented contracts, which the spec
  restates; all code of the repository itself is translated from `src/`.
-/

namespace B1b

/-- Big-endian byte serialisation of a `uint16_t` (what `B1B_HTONS` plus a
struct store produces in memory, on any host). -/
def u16be (n : Nat) : List Nat := [n / 256 % 256, n % 256]

/-- Little-endian byte serialisation of a `uint16_t` (what a plain store of a
host-order value produces in memory on a little-endian host). -/
def u16le (n : Nat) : List Nat := [n % 256, n / 256 % 256]

/-- Host-order byte serialisation of a `uint16_t`: the bytes that land in
memory when the C code assigns a host-order `uint16_t` to a struct field
without converting (`vlan.vid = dst.vlan` in `b1b_send_garp`). -/
def u16host (hostLE : Bool) (n : Nat) : List Nat :=
  if hostLE then u16le n else u16be n

/-- Model of `struct b1b_dst` from `b1b.h`: a `uint16_t` VLAN id and a 6-byte MAC. -/
structure Dst where
  vlan : Nat
  mac : List Nat
deriving DecidableEq, Repr

/-!
Section: `garp.c` — gratuitous-ARP frame construction

`b1b_send_garp` builds the frame from up to three iovec segments backed by
`static` C objects:

* `iovs[0]` is always `macs` (12 bytes, `iov_len` fixed at 12);
* in the tagged branch (`dst.vlan != 0`) the code sets
  `iovs[1] = {&vlan, 4}`, `iovs[2] = {&arp, 30}` and `msg_iovlen = 3`;
* in the untagged branch the code sets `iovs[1].iov_base = &arp`,
  `iovs[2].iov_len = sizeof arp` and `msg_iovlen = 2` — it never assigns
  `iovs[1].iov_len`, so that length keeps whatever value the `static`
  array currently holds (0 from static initialisation, or 4 left behind by
  a previous tagged call).

The persistent (static) parts of that state are the two mutable `iov_len`
fields, carried here in `IovState`.
-/
/-- The mutable `iov_len` fields of the `static struct iovec iovs[3]` in
`b1b_send_garp` (`iovs[0].iov_len` is fixed at 12 by the initialiser). -/
structure IovState where
  iov1len : Nat
  iov2len : Nat
deriving DecidableEq, Repr

/-- Static initialisation of `iovs`: only `iovs[0]` is initialised, the
other lengths are zero. -/
def iovInit : IovState := ⟨0, 0⟩

/-- Model of `struct b1b_eth_macs`: broadcast destination MAC then the source MAC
(set to `dst.mac` by the `memcpy` in `b1b_send_garp`). -/
def ethMacs (src : List Nat) : List Nat :=
  [0xff, 0xff, 0xff, 0xff, 0xff, 0xff] ++ src

/-- Model of `struct b1b_vlan_hdr` as laid out in memory: `etype` was initialised
with `B1B_HTONS(ETH_P_8021Q)` (big-endian `0x8100`), but `vid` is assigned
`dst.vlan` with **no** byte-order conversion, so its bytes follow the host
byte order. -/
def vlanHdrBytes (hostLE : Bool) (vid : Nat) : List Nat :=
  u16be 0x8100 ++ u16host hostLE vid

/-- Model of `struct b1b_arp` (30 bytes) as laid out in memory: every multi-byte
field is initialised through `B1B_HTONS`, hence big-endian; `sha` is set to
`dst.mac` by `memcpy`; `spa`, `tha`, `tpa` are all zero. -/
def arpSegBytes (sha : List Nat) : List Nat :=
  u16be 0x0806 ++ u16be 1 ++ u16be 0x0800 ++ [6, 4] ++ u16be 2 ++
    sha ++ [0, 0, 0, 0] ++ [0, 0, 0, 0, 0, 0] ++ [0, 0, 0, 0]

/-- Model of `b1b_send_garp` (garp.c): returns the byte sequence handed to
`sendmsg` (the concatenation of the first `msg_iovlen` iovecs, each
truncated to its `iov_len`) together with the static iovec state left for
the next call.  The tagged branch emits all three segments; the untagged
branch emits `iovs[0]` and `iovs[1]`, where `iovs[1]` now points at the
ARP segment but keeps its previous length. -/
def b1b_send_garp (hostLE : Bool) (st : IovState) (dst : Dst) :
    List Nat × IovState :=
  if dst.vlan ≠ 0 then
    (ethMacs dst.mac ++ vlanHdrBytes hostLE dst.vlan ++ arpSegBytes dst.mac,
     ⟨4, 30⟩)
  else
    (ethMacs dst.mac ++ (arpSegBytes dst.mac).take st.iov1len,
     ⟨st.iov1len, 30⟩)

/-!
Section: `fdbtree.c` — the per-bond FDB set

`b1b_fdb_add` inserts a destination into an AVL tree (`savl_try_add`)
keyed by the 8-byte punned value `union b1b_fdb_dst.u64`; when the key is
already present `savl_try_add` returns the existing node, the existing
entry is kept and the new node is freed.  The `savl` library is an
external collaborator; its documented contract is an ordered set over the
comparator of `b1b_fdb_cmp_cb` (numeric order of the `u64` keys), iterated
in key order by `savl_first`/`savl_next`.  We model that contract with a
strictly key-sorted list: `fdbInsert` places the new entry at its ordered
position and drops it when an entry with an equal key exists.
-/
/-- Value of the 6 MAC bytes viewed as the high 48 bits of the
little-endian `u64` pun of `struct b1b_dst` (byte 0 is least
significant). -/
def macU48 : List Nat → Nat
  | [] => 0
  | b :: r => b % 256 + 256 * macU48 r

/-- Model of `union b1b_fdb_dst.u64`: the 8-byte pun of `struct b1b_dst` (the
`uint16_t` VLAN in the low 16 bits, the MAC bytes above it — the
little-endian in-memory view; the pun is injective on well-formed
destinations either way, only the resulting order differs). -/
def b1b_dst_u64 (d : Dst) : Nat := d.vlan % 65536 + 65536 * macU48 d.mac

/-- The static `mac_mask` of `b1b_br_fdb_msg_cb` (bridge.c): VLAN bits
zero, all six MAC bytes `0xff`. -/
def b1b_mac_mask : Nat := 65536 * macU48 [255, 255, 255, 255, 255, 255]

/-- The FDB set: contract model of the `savl` tree rooted at
`bs->fdbtree`, as the strictly key-sorted list of its entries (the order
in which `b1b_send_garps` visits them). -/
def FdbTree := List Dst

/-- Model of `b1b_fdb_add` (fdbtree.c): insert keyed by `b1b_dst_u64`; on a key
collision the existing entry wins and the duplicate is dropped. -/
def b1b_fdb_add (t : List Dst) (d : Dst) : List Dst :=
  match t with
  | [] => [d]
  | x :: r =>
    if b1b_dst_u64 d < b1b_dst_u64 x then d :: x :: r
    else if b1b_dst_u64 d = b1b_dst_u64 x then x :: r
    else x :: b1b_fdb_add r d

/-- The tree obtained from a sequence of `b1b_fdb_add` calls starting from
the empty set (a freshly created FDB). -/
def fdbOfList (ds : List Dst) : List Dst := ds.foldl b1b_fdb_add []

/-- Keys currently stored in the tree. -/
def fdbKeys (t : List Dst) : List Nat := t.map b1b_dst_u64

/-- Strict sortedness of the tree by key (the AVL order invariant). -/
abbrev FdbSorted (t : List Dst) : Prop :=
  t.Pairwise (fun a b => b1b_dst_u64 a < b1b_dst_u64 b)

/-!
Section: `bridge.c` — native-bridge FDB reader

`b1b_br_get_fdb` issues an `RTM_GETNEIGH` dump and feeds every reply
message through `b1b_br_fdb_msg_cb`.  Netlink constants (values from the
kernel uapi headers): `NLMSG_DONE = 3`, `RTM_NEWNEIGH = 28`,
`NUD_PERMANENT = 0x80`, and the attribute types `NDA_LLADDR = 2`,
`NDA_VLAN = 5` are modelled by the constructors of `NdAttr`.

`b1b_br_fdb_attr_cb` always returns `MNL_CB_OK`, so `mnl_attr_parse`
never fails here and the attribute walk is a plain fold over the
attribute list; `mnl_attr_get_u16` truncates to 16 bits and the `memcpy`
into `dst.mac` copies bytes (modelled with `% 256`).
-/
/-- A netlink neighbor attribute: `NDA_LLADDR` (link-layer address
payload), `NDA_VLAN` (`uint16_t` payload), or any other attribute type
(ignored by the callback). -/
inductive NdAttr
  | lladdr (payload : List Nat)
  | ndaVlan (v : Nat)
  | ndaOther (t : Nat)
deriving DecidableEq, Repr

/-- One netlink message of a neighbor dump: its `nlmsghdr.nlmsg_type` and
the `struct ndmsg` fields and attributes the callback reads. -/
structure NdMsg where
  nlmsg_type : Nat
  ndm_ifindex : Int
  ndm_state : Nat
  attrs : List NdAttr
deriving DecidableEq, Repr

/-- Model of `b1b_br_fdb_attr_cb` (bridge.c): `NDA_LLADDR` overwrites the 6 MAC
bytes, `NDA_VLAN` overwrites the VLAN id, anything else is ignored.  The
callback always returns `MNL_CB_OK`, so it is a fold step. -/
def b1b_br_fdb_attr_cb (d : Dst) (a : NdAttr) : Dst :=
  match a with
  | .lladdr p => ⟨d.vlan, (p.take 6).map (· % 256)⟩
  | .ndaVlan v => ⟨v % 65536, d.mac⟩
  | .ndaOther _ => d

/-- The destination assembled from one message: `dst.u64 = 0` (VLAN 0,
all-zero MAC) then the attribute walk. -/
def extractNdDst (m : NdMsg) : Dst :=
  m.attrs.foldl b1b_br_fdb_attr_cb ⟨0, [0, 0, 0, 0, 0, 0]⟩

/-- Model of `b1b_br_fdb_msg_cb` (bridge.c): returns whether the reply loop
continues (`MNL_CB_OK`; `false` models `MNL_CB_STOP` on `NLMSG_DONE`) and
the updated FDB tree.  Skips non-`RTM_NEWNEIGH` messages, entries whose
`ndm_ifindex` is the bond's own, permanent entries, and entries whose MAC
bytes are all zero under the `mac_mask` compare. -/
def b1b_br_fdb_msg_cb (ifx : Int) (t : List Dst) (m : NdMsg) :
    Bool × List Dst :=
  if m.nlmsg_type = 3 then (false, t)
  else if m.nlmsg_type ≠ 28 then (true, t)
  else if m.ndm_ifindex = ifx ∨ m.ndm_state &&& 0x80 ≠ 0 then (true, t)
  else
    let dst := extractNdDst m
    if b1b_dst_u64 dst &&& b1b_mac_mask = 0 then (true, t)
    else (true, b1b_fdb_add t dst)

/-- The reply loop of a native FDB dump (`b1b_br_get_fdb` via
`b1b_nlmsg_req`): feed each message to the callback until it stops. -/
def runBrFdbDump (ifx : Int) (msgs : List NdMsg) (t : List Dst) :
    List Dst :=
  match msgs with
  | [] => t
  | m :: r =>
    match b1b_br_fdb_msg_cb ifx t m with
    | (true, u) => runBrFdbDump ifx r u
    | (false, u) => u

/-!
Section: `ovs.c` — the `fdb/show` table parser (`b1b_ovs_get_fdb`)

The response body is split into lines by the destructive line iterator;
the first line (the header) is skipped.  Each remaining line is skipped if
it begins with the literal prefix `LOCAL`; otherwise it is parsed with
`sscanf(line, " %u %hu %hhx:%hhx:%hhx:%hhx:%hhx:%hhx", ...)` and a parse
failure is fatal (modelled as `none`).  A parsed row is inserted iff its
`ofport` differs from the bond's `ofport`.

The `sscanf` directives are modelled literally: a numeric conversion
skips leading whitespace and consumes a non-empty digit run; the literal
`:` must match the very next character; converted values are truncated to
the destination width (`%u` 32 bits, `%hu` 16 bits, `%hhx` 8 bits).
-/
/-- Whitespace as `sscanf` skips it inside a line (the line iterator has
already removed the newlines). -/
def isWsC (c : Char) : Bool := c = ' ' || c = '\t'

def skipWs (l : List Char) : List Char := l.dropWhile isWsC

def isHexDigitC (c : Char) : Bool :=
  c.isDigit || ('a' ≤ c && c ≤ 'f') || ('A' ≤ c && c ≤ 'F')

def hexVal (c : Char) : Nat :=
  if c.isDigit then c.toNat - 48
  else if 'a' ≤ c && c ≤ 'f' then c.toNat - 87
  else c.toNat - 55

/-- One `%u`/`%hu` conversion after whitespace skipping: a non-empty
decimal digit run. -/
def readDec (l : List Char) : Option (Nat × List Char) :=
  let ds := l.takeWhile Char.isDigit
  if ds.isEmpty then none
  else some (ds.foldl (fun a c => 10 * a + (c.toNat - 48)) 0,
             l.dropWhile Char.isDigit)

/-- One `%hhx` conversion (after its own whitespace skipping): a
non-empty hexadecimal digit run. -/
def readHex (l : List Char) : Option (Nat × List Char) :=
  let ds := l.takeWhile isHexDigitC
  if ds.isEmpty then none
  else some (ds.foldl (fun a c => 16 * a + hexVal c) 0,
             l.dropWhile isHexDigitC)

/-- The literal `:` of the format string: must match the next character
exactly (no whitespace skipping before a literal non-space character). -/
def expectColon (l : List Char) : Option (List Char) :=
  match l with
  | ':' :: r => some r
  | _ => none

/-- The trailing `:%hhx` groups of the format string: a literal `:`,
then a hex byte (`%hhx` skips leading whitespace itself, truncates to 8
bits). -/
def readMacRest (n : Nat) (l : List Char) : Option (List Nat × List Char) :=
  match n with
  | 0 => some ([], l)
  | k + 1 =>
    match expectColon l with
    | none => none
    | some l =>
      match readHex (skipWs l) with
      | none => none
      | some (v, l) =>
        match readMacRest k l with
        | none => none
        | some (vs, l2) => some (v % 256 :: vs, l2)

/-- The `%hhx:%hhx:%hhx:%hhx:%hhx:%hhx` tail of the format: the first
hex byte, then five colon-separated ones. -/
def readMac (l : List Char) : Option (List Nat × List Char) :=
  match readHex (skipWs l) with
  | none => none
  | some (v, l) =>
    match readMacRest 5 l with
    | none => none
    | some (vs, l2) => some (v % 256 :: vs, l2)

/-- Model of `sscanf(line, " %u %hu %hhx:%hhx:%hhx:%hhx:%hhx:%hhx", ...)` from
`b1b_ovs_get_fdb`, succeeding only when all 8 conversions succeed
(`result != 8` is fatal). -/
def parseFdbLine (l : List Char) : Option (Nat × Dst) :=
  match readDec (skipWs l) with
  | none => none
  | some (op, l) =>
    match readDec (skipWs l) with
    | none => none
    | some (vl, l) =>
      match readMac l with
      | none => none
      | some (mac, _) => some (op % 4294967296, ⟨vl % 65536, mac⟩)

/-- Model of `strncmp(line, "LOCAL", 5) == 0`. -/
def startsWithLocal (l : List Char) : Bool :=
  l.take 5 == ['L', 'O', 'C', 'A', 'L']

/-- The row loop of `b1b_ovs_get_fdb`: `LOCAL` rows are skipped before
parsing, a parse failure is fatal (`none`), and a parsed row is inserted
iff its ofport differs from the bond's. -/
def ovsFdbRows (ofportB : Nat) (rows : List (List Char)) (t : List Dst) :
    Option (List Dst) :=
  match rows with
  | [] => some t
  | l :: r =>
    if startsWithLocal l then ovsFdbRows ofportB r t
    else
      match parseFdbLine l with
      | none => none
      | some (op, d) =>
        ovsFdbRows ofportB r (if op ≠ ofportB then b1b_fdb_add t d else t)

/-- Model of `b1b_ovs_get_fdb` (ovs.c), starting from the line list of the
`fdb/show` response: skip the header line, then run the row loop on a
freshly created (empty) FDB. -/
def b1b_ovs_get_fdb (ofportB : Nat) (lines : List (List Char)) :
    Option (List Dst) :=
  ovsFdbRows ofportB (lines.drop 1) []

/-- A concrete `fdb/show` header line (content irrelevant, always
skipped). -/
def fdbShowHeader : List Char := (" port  VLAN  MAC                Age").toList

/-- A concrete `LOCAL` row (the OVS-internal port). -/
def fdbShowRowLocal : List Char :=
  ("LOCAL     0  02:00:00:00:00:aa    0").toList

/-- A concrete row learned on the bond's own OF port 5. -/
def fdbShowRowOwn : List Char :=
  ("    5     0  02:00:00:00:00:bb    1").toList

/-- A concrete row learned on another port (OF port 9, VLAN 20). -/
def fdbShowRowGood : List Char :=
  ("    9    20  02:00:00:00:00:cc    2").toList

/-- Well-formedness of a destination as produced by the parsers: the
fields fit their C types and the MAC has 6 bytes. -/
def DstNorm (d : Dst) : Prop :=
  d.vlan < 65536 ∧ d.mac.length = 6 ∧ ∀ x ∈ d.mac, x < 256

/-!
Section: `ovs.c` — `b1b_ovs_rpc_recv`

The receive path reads the response in one `read` into the scratch
buffer of size `bufsize` and runs it through the `json-c` tokener.  The
`json-c` library is an external collaborator; a parsed value is modelled
by `OvsJson` and the accessors by their documented contracts
(`json_object_get_uint64` clamps negative integers to 0,
`json_object_get_string_len` is 0 for non-strings).  The input of the
model is the outcome of `read` plus the tokener result on those bytes:
`none` models a failed `read`, `some (bytes, parsed)` a read of `bytes`
bytes whose buffer parses to `parsed` (`none` = tokener failure).  Every
`B1B_FATAL` exit is modelled as `none`; a normal return of the C `_Bool`
is `some result`. -/
/-- The `json_type` enum of json-c. -/
inductive JType
  | tnull | tbool | tdouble | tint | tobj | tarr | tstr
deriving DecidableEq, Repr

/-- A parsed json-c value (doubles carry no payload; nothing here needs
one). -/
inductive OvsJson
  | jnull
  | jbool (b : Bool)
  | jdouble
  | jint (n : Int)
  | jobj (fields : List (List Char × OvsJson))
  | jarr (elemCount : Nat)
  | jstr (s : List Char)

def jtype : OvsJson → JType
  | .jnull => .tnull
  | .jbool _ => .tbool
  | .jdouble => .tdouble
  | .jint _ => .tint
  | .jobj _ => .tobj
  | .jarr _ => .tarr
  | .jstr _ => .tstr

/-- Contract of `json_object_object_get_ex`. -/
def jsonGet (o : OvsJson) (name : List Char) : Option OvsJson :=
  match o with
  | .jobj fields => fields.lookup name
  | _ => none

/-- Contract of `json_object_get_uint64` on a member already known to be an integer
(json-c clamps negative values to 0). -/
def jsonGetUint64 : OvsJson → Nat
  | .jint n => n.toNat
  | _ => 0

/-- Contract of `json_object_get_string_len` (0 for non-strings). -/
def jsonGetStringLen : OvsJson → Nat
  | .jstr s => s.length
  | _ => 0

def keyId : List Char := ['i', 'd']

def keyError : List Char := ['e', 'r', 'r', 'o', 'r']

def keyResult : List Char := ['r', 'e', 's', 'u', 'l', 't']

/-- Model of `b1b_json_resp_get` (ovs.c): fetch a member and check its type
against the vararg list of acceptable types; a missing member or an
unacceptable type is fatal (`none`). -/
def b1b_json_resp_get (resp : OvsJson) (name : List Char)
    (types : List JType) : Option OvsJson :=
  match jsonGet resp name with
  | none => none
  | some m => if jtype m ∈ types then some m else none

/-- The `member`/`result` selection of `b1b_ovs_rpc_recv`: fetch the
`error` member (string or null); a string selects it with C result 0, a
null selects the `result` member (which must be a string) with C result
1. -/
def rpcSelectMember (resp : OvsJson) : Option (OvsJson × Bool) :=
  match b1b_json_resp_get resp keyError [.tstr, .tnull] with
  | none => none
  | some errm =>
    if jtype errm = .tstr then some (errm, false)
    else
      match b1b_json_resp_get resp keyResult [.tstr] with
      | none => none
      | some resm => some (resm, true)

/-- The steps of `b1b_ovs_rpc_recv` after a response object has been
obtained: check the `id` member against the request id, select the
`error`/`result` member, and reject a zero-length string. -/
def rpcOnResp (resp : OvsJson) (reqid : Nat) : Option Bool :=
  if jtype resp ≠ .tobj then none
  else
    match b1b_json_resp_get resp keyId [.tint] with
    | none => none
    | some idm =>
      if jsonGetUint64 idm ≠ reqid then none
      else
        match rpcSelectMember resp with
        | none => none
        | some (member, result) =>
          if jsonGetStringLen member = 0 then none else some result

/-- Model of `b1b_ovs_rpc_recv` (ovs.c).  `rr = none` models a failed `read`;
`rr = some (bytes, parsed)` models a read of `bytes` bytes parsing to
`parsed`.  Returns `none` on every `B1B_FATAL` path and `some result`
(the C `_Bool`: `true` = `result` member present, `false` = `error`
member is a string) on the normal path. -/
def b1b_ovs_rpc_recv (bufsize : Nat) (rr : Option (Nat × Option OvsJson))
    (reqid : Nat) : Option Bool :=
  match rr with
  | none => none
  | some (bytes, parsed) =>
    if bytes = bufsize then none
    else
      match parsed with
      | none => none
      | some resp => rpcOnResp resp reqid

/-- The abnormal-free shape of a received response: the `read` succeeded
with strictly fewer bytes than the buffer size, the bytes parse to a
JSON object whose `id` member is an integer equal to the request id, and
whose `error`/`result` members have the documented shape with a
non-empty selected string. -/
def rpcRespWellFormed (bufsize : Nat) (rr : Option (Nat × Option OvsJson))
    (reqid : Nat) : Prop :=
  ∃ bytes resp, rr = some (bytes, some resp) ∧ bytes ≠ bufsize ∧
    jtype resp = .tobj ∧
    (∃ idm, jsonGet resp keyId = some idm ∧ jtype idm = .tint ∧
      jsonGetUint64 idm = reqid) ∧
    (∃ errm, jsonGet resp keyError = some errm ∧
      ((jtype errm = .tstr ∧ jsonGetStringLen errm ≠ 0) ∨
       (jtype errm = .tnull ∧ ∃ resm, jsonGet resp keyResult = some resm ∧
         jtype resm = .tstr ∧ jsonGetStringLen resm ≠ 0)))

/-!
Section: `bond.c` — bond inventory (`b1b_parse_bonds`, `b1b_detect_bonds`)

Both modes end with `qsort(gs->bonds, gs->bcount, sizeof *gs->bonds,
b1b_bs_ifindex_cmp)`.  libc `qsort` is an external collaborator modelled
by its contract (a permutation of the array ordered so that the
comparator never reports a later element smaller than an earlier one);
`insertionSort` over the comparator-induced relation realises that
contract.

`b1b_parse_bonds` resolves every command-line name via netlink; any
validation failure (`b1b_check_bs` with `B1B_BS_CHECK_CLI`, or an
unresolvable master) exits the process, so the function returns only
when every resolved bond passes — modelled by `none` vs `some`.
`b1b_detect_bonds` dumps all links, keeps the candidates passing
`b1b_check_bs` (collected by list prepend, hence reversed), drops those
whose master is not a Linux or OVS bridge, and exits fatally when none
remain. -/
/-- The fields of `struct b1b_bond_session` that the inventory logic
reads: interface kind (`0` none / `1` bond / `2` other, from
`IFLA_INFO_KIND`), bonding mode byte, master ifindex, resolved bridge
type (`0` none / `1` Linux / `2` OVS / `3` other) and own ifindex. -/
structure BondInfo where
  iftype : Nat
  mode : Nat
  brindex : Int
  brtype : Nat
  ifindex : Int
deriving DecidableEq, Repr

/-- Model of `b1b_check_bs` (bond.c): interface must be a bond, mode byte set and
equal to 1 (active-backup), master present. -/
def b1b_check_bs (bs : BondInfo) : Bool :=
  if bs.iftype = 0 then false
  else if bs.iftype = 2 then false
  else if bs.mode = 0xff then false
  else if bs.mode ≠ 1 then false
  else if bs.brindex = 0 then false
  else true

/-- The outcome of `b1b_get_bridge_info` (bond.c): usable iff the master
resolved as a Linux bridge or an OVS switch. -/
def b1b_bridge_ok (bs : BondInfo) : Bool :=
  bs.brtype = 1 || bs.brtype = 2

/-- Model of `b1b_bs_ifindex_cmp` (netlink.c): the three-way `qsort`/`bsearch`
comparator on `ifindex`. -/
def b1b_bs_ifindex_cmp (a b : BondInfo) : Int :=
  if a.ifindex < b.ifindex then -1
  else if a.ifindex > b.ifindex then 1
  else 0

/-- The order relation induced by the comparator (what `qsort`
guarantees about adjacent elements of its output). -/
def bondCmpLe (a b : BondInfo) : Prop := b1b_bs_ifindex_cmp a b ≤ 0

instance : DecidableRel bondCmpLe := fun a b => by
  unfold bondCmpLe; infer_instance

instance : IsTotal BondInfo bondCmpLe :=
  ⟨fun a b => by
    unfold bondCmpLe b1b_bs_ifindex_cmp
    split_ifs <;> omega⟩

instance : IsTrans BondInfo bondCmpLe :=
  ⟨fun a b c hab hbc => by
    unfold bondCmpLe b1b_bs_ifindex_cmp at hab hbc ⊢
    split_ifs at hab hbc ⊢ <;> omega⟩

/-- Contract model of libc `qsort` with `b1b_bs_ifindex_cmp`. -/
def qsortBonds (l : List BondInfo) : List BondInfo :=
  l.insertionSort bondCmpLe

/-- Model of `b1b_parse_bonds` (bond.c): one resolved link per CLI argument; any
validation failure is fatal (`none`); on success the array is sorted by
the comparator. -/
def b1b_parse_bonds (resolved : List BondInfo) : Option (List BondInfo) :=
  if resolved.all (fun b => b1b_check_bs b && b1b_bridge_ok b)
  then some (qsortBonds resolved) else none

/-- Model of `b1b_detect_bonds` (bond.c): filter the link dump through
`b1b_check_bs` (prepend-collected, hence reversed), drop candidates
without a usable bridge, fail when none remain, sort the rest. -/
def b1b_detect_bonds (links : List BondInfo) : Option (List BondInfo) :=
  let cands := ((links.filter b1b_check_bs).reverse).filter b1b_bridge_ok
  if cands.isEmpty then none else some (qsortBonds cands)

/-- A well-formed `fdb/show` response object with id 7 and a non-empty
result string. -/
def rpcRespGood : OvsJson :=
  OvsJson.jobj [(keyId, OvsJson.jint 7), (keyError, OvsJson.jnull),
    (keyResult, OvsJson.jstr ['o', 'k', '\n'])]

/-- The same response but with id 9 (a stale or foreign reply). -/
def rpcRespBad : OvsJson :=
  OvsJson.jobj [(keyId, OvsJson.jint 9), (keyError, OvsJson.jnull),
    (keyResult, OvsJson.jstr ['o', 'k', '\n'])]

def bondDup : BondInfo := ⟨1, 1, 3, 1, 5⟩

def bondIx3 : BondInfo := ⟨1, 1, 3, 1, 3⟩

/-- The dispatcher-relevant fields of `struct b1b_bond_session`. -/
structure McBond where
  ifindex : Int
  failover_event : Bool
deriving DecidableEq, Repr

/-- A link-message attribute: `IFLA_EVENT` (value from `enum ifla_event`,
`IFLA_EVENT_BONDING_FAILOVER = 3`) or any other attribute type. -/
inductive McAttr
  | iflaEvent (v : Nat)
  | mcOther (t : Nat)
deriving DecidableEq, Repr

/-- One multicast link message: `nlmsg_type` (`RTM_NEWLINK = 16`),
`ifinfomsg.ifi_index`, attributes. -/
structure McMsg where
  nlmsg_type : Nat
  ifi_index : Int
  attrs : List McAttr
deriving DecidableEq, Repr

/-- Model of `b1b_mc_attr_cb` (netlink.c) as a walk over the attribute list: the
first `IFLA_EVENT` attribute stops the walk, setting the flag when its
value is `IFLA_EVENT_BONDING_FAILOVER` (a duplicate is only logged — the
flag stays set). -/
def b1b_mc_attr_run (f : Bool) (attrs : List McAttr) : Bool :=
  match attrs with
  | [] => f
  | .iflaEvent v :: _ => if v = 3 then true else f
  | .mcOther _ :: r => b1b_mc_attr_run f r

/-- Model of `b1b_mc_msg_cb` (netlink.c): ignore non-`RTM_NEWLINK` messages;
binary-search the inventory by `ifi_index` (libc `bsearch` on the
`ifindex`-sorted array, modelled by its contract: it finds a matching
element iff one exists) and ignore the message when the search fails;
otherwise run the attribute walk on the found bond's flag. -/
def b1b_mc_msg_cb (inv : List McBond) (m : McMsg) : List McBond :=
  if m.nlmsg_type ≠ 16 then inv
  else if inv.all (fun b => b.ifindex != m.ifi_index) then inv
  else inv.map (fun b => if b.ifindex = m.ifi_index
    then ⟨b.ifindex, b1b_mc_attr_run b.failover_event m.attrs⟩ else b)

/-- Model of `b1b_mcast_process` (netlink.c): clear every `failover_event` flag,
drain the multicast socket (fold the message callback over every message
received in this poll cycle), then walk the inventory in order and
perform one FDB-dump-plus-GARP burst (`b1b_send_garps`) for every bond
whose flag is set.  The second component is the list of bond ifindexes
for which a burst is performed, in inventory order. -/
def b1b_mcast_process (inv : List McBond) (msgs : List McMsg) :
    List McBond × List Int :=
  let cleared := inv.map (fun b => ⟨b.ifindex, false⟩)
  let final := msgs.foldl b1b_mc_msg_cb cleared
  (final, (final.filter (fun b => b.failover_event)).map
    (fun b => b.ifindex))

/-- The per-element effect of one message on one bond's flag. -/
def elemStep (ifx : Int) (f : Bool) (m : McMsg) : Bool :=
  if m.nlmsg_type = 16 ∧ m.ifi_index = ifx
  then b1b_mc_attr_run f m.attrs else f

/-- The per-element effect of a whole drained cycle. -/
def elemFold (ifx : Int) (f : Bool) (msgs : List McMsg) : Bool :=
  msgs.foldl (elemStep ifx) f

/-- The drained inventory in closed form. -/
def finalOf (msgs : List McMsg) (inv : List McBond) : List McBond :=
  inv.map (fun b => ⟨b.ifindex, elemFold b.ifindex false msgs⟩)

/-- The burst list in closed form. -/
def burstOf (msgs : List McMsg) (inv : List McBond) : List Int :=
  ((finalOf msgs inv).filter (fun b => b.failover_event)).map
    (fun b => b.ifindex)

theorem mem_fdb_add {t : List Dst} {d e : Dst} (h : e ∈ b1b_fdb_add t d) :
    e ∈ t ∨ e = d := by
  induction t with
  | nil => simpa [b1b_fdb_add] using h
  | cons x r ih =>
    by_cases h1 : b1b_dst_u64 d < b1b_dst_u64 x
    · simp only [b1b_fdb_add, if_pos h1, List.mem_cons] at h
      rcases h with h | h | h
      · exact Or.inr h
      · exact Or.inl (by simp [h])
      · exact Or.inl (by simp [h])
    · by_cases h2 : b1b_dst_u64 d = b1b_dst_u64 x
      · simp only [b1b_fdb_add, if_neg h1, if_pos h2] at h
        exact Or.inl h
      · simp only [b1b_fdb_add, if_neg h1, if_neg h2, List.mem_cons] at h
        rcases h with h | h
        · exact Or.inl (by simp [h])
        · rcases ih h with h | h
          · exact Or.inl (List.mem_cons_of_mem _ h)
          · exact Or.inr h

theorem mem_of_mem_fdb {t : List Dst} {d e : Dst} (h : e ∈ t) :
    e ∈ b1b_fdb_add t d := by
  induction t with
  | nil => cases h
  | cons x r ih =>
    by_cases h1 : b1b_dst_u64 d < b1b_dst_u64 x
    · simp only [b1b_fdb_add, if_pos h1]
      exact List.mem_cons_of_mem _ h
    · by_cases h2 : b1b_dst_u64 d = b1b_dst_u64 x
      · simpa [b1b_fdb_add, if_neg h1, if_pos h2] using h
      · simp only [b1b_fdb_add, if_neg h1, if_neg h2, List.mem_cons]
        rcases List.mem_cons.mp h with h | h
        · exact Or.inl h
        · exact Or.inr (ih h)

theorem key_mem_fdb_add (t : List Dst) (d : Dst) :
    b1b_dst_u64 d ∈ fdbKeys (b1b_fdb_add t d) := by
  induction t with
  | nil => simp [b1b_fdb_add, fdbKeys]
  | cons x r ih =>
    by_cases h1 : b1b_dst_u64 d < b1b_dst_u64 x
    · simp [b1b_fdb_add, if_pos h1, fdbKeys]
    · by_cases h2 : b1b_dst_u64 d = b1b_dst_u64 x
      · simp [b1b_fdb_add, if_neg h1, if_pos h2, fdbKeys, h2]
      · simp only [b1b_fdb_add, if_neg h1, if_neg h2, fdbKeys, List.map_cons,
          List.mem_cons]
        exact Or.inr ih

theorem keys_fdb_add (t : List Dst) (d : Dst) (k : Nat) :
    k ∈ fdbKeys (b1b_fdb_add t d) ↔ k ∈ fdbKeys t ∨ k = b1b_dst_u64 d := by
  induction t with
  | nil => simp [b1b_fdb_add, fdbKeys]
  | cons x r ih =>
    by_cases h1 : b1b_dst_u64 d < b1b_dst_u64 x
    · simp only [b1b_fdb_add, if_pos h1, fdbKeys, List.map_cons, List.mem_cons]
      tauto
    · by_cases h2 : b1b_dst_u64 d = b1b_dst_u64 x
      · simp only [b1b_fdb_add, if_neg h1, if_pos h2, fdbKeys, List.map_cons,
          List.mem_cons]
        constructor
        · tauto
        · rintro ((h | h) | h)
          · exact Or.inl h
          · exact Or.inr h
          · exact Or.inl (h.trans h2)
      · simp only [b1b_fdb_add, if_neg h1, if_neg h2, fdbKeys, List.map_cons,
          List.mem_cons] at ih ⊢
        rw [ih]
        tauto

theorem sorted_fdb_add {t : List Dst} (hs : FdbSorted t) (d : Dst) :
    FdbSorted (b1b_fdb_add t d) := by
  induction t with
  | nil => simp [b1b_fdb_add]
  | cons x r ih =>
    rcases (List.pairwise_cons.mp hs) with ⟨hx, hr⟩
    by_cases h1 : b1b_dst_u64 d < b1b_dst_u64 x
    · simp only [b1b_fdb_add, if_pos h1]
      refine List.pairwise_cons.mpr ⟨?_, hs⟩
      intro e he
      rcases List.mem_cons.mp he with h | h
      · subst h; exact h1
      · exact h1.trans (hx e h)
    · by_cases h2 : b1b_dst_u64 d = b1b_dst_u64 x
      · simpa [b1b_fdb_add, if_neg h1, if_pos h2] using hs
      · have hgt : b1b_dst_u64 x < b1b_dst_u64 d := by omega
        simp only [b1b_fdb_add, if_neg h1, if_neg h2]
        refine List.pairwise_cons.mpr ⟨?_, ih hr⟩
        intro e he
        rcases mem_fdb_add he with h | h
        · exact hx e h
        · subst h; exact hgt

theorem fdb_add_of_mem {t : List Dst} (hs : FdbSorted t) {d : Dst}
    (hm : b1b_dst_u64 d ∈ fdbKeys t) : b1b_fdb_add t d = t := by
  induction t with
  | nil => cases hm
  | cons x r ih =>
    rcases (List.pairwise_cons.mp hs) with ⟨hx, hr⟩
    simp only [fdbKeys, List.map_cons, List.mem_cons] at hm
    rcases hm with h | h
    · have h1 : ¬ b1b_dst_u64 d < b1b_dst_u64 x := by omega
      simp [b1b_fdb_add, if_neg h1, if_pos h]
    · rcases List.mem_map.mp h with ⟨e, he, hk⟩
      have hlt : b1b_dst_u64 x < b1b_dst_u64 d := by
        have := hx e he; omega
      have h1 : ¬ b1b_dst_u64 d < b1b_dst_u64 x := by omega
      have h2 : b1b_dst_u64 d ≠ b1b_dst_u64 x := by omega
      simp [b1b_fdb_add, if_neg h1, if_neg h2, ih hr h]

theorem length_fdb_add_of_not_mem {t : List Dst} {d : Dst}
    (hm : b1b_dst_u64 d ∉ fdbKeys t) :
    (b1b_fdb_add t d).length = t.length + 1 := by
  induction t with
  | nil => simp [b1b_fdb_add]
  | cons x r ih =>
    simp only [fdbKeys, List.map_cons, List.mem_cons, not_or] at hm
    by_cases h1 : b1b_dst_u64 d < b1b_dst_u64 x
    · simp [b1b_fdb_add, if_pos h1]
    · simp only [b1b_fdb_add, if_neg h1, if_neg hm.1, List.length_cons]
      rw [ih hm.2]

theorem fold_fdb_sorted (ds : List Dst) :
    ∀ t : List Dst, FdbSorted t → FdbSorted (ds.foldl b1b_fdb_add t) := by
  induction ds with
  | nil => intro t ht; simpa using ht
  | cons d r ih =>
    intro t ht
    simpa [List.foldl_cons] using ih _ (sorted_fdb_add ht d)

theorem fold_fdb_keys (ds : List Dst) :
    ∀ (t : List Dst) (k : Nat), k ∈ fdbKeys (ds.foldl b1b_fdb_add t) ↔
      k ∈ fdbKeys t ∨ k ∈ ds.map b1b_dst_u64 := by
  induction ds with
  | nil => intro t k; simp
  | cons d r ih =>
    intro t k
    simp only [List.foldl_cons, List.map_cons, List.mem_cons]
    rw [ih, keys_fdb_add]
    tauto

theorem sorted_fdb_keys_nodup {t : List Dst} (hs : FdbSorted t) :
    (fdbKeys t).Nodup := by
  have : (fdbKeys t).Pairwise (fun a b => a ≠ b) := by
    rw [fdbKeys, List.pairwise_map]
    exact hs.imp (fun h => Nat.ne_of_lt h)
  exact this

/-- C4: starting from the empty set, the number of entries after any
sequence of `b1b_fdb_add` calls equals the number of distinct 8-byte
`(vlan, mac)` keys inserted; and inserting a destination whose key is
already present leaves the tree completely unchanged (the existing entry
is kept, the duplicate is dropped). -/
theorem fdb_uniqueness (ds : List Dst) :
    (fdbOfList ds).length = (ds.map b1b_dst_u64).toFinset.card ∧
    ∀ d : Dst, b1b_dst_u64 d ∈ fdbKeys (fdbOfList ds) →
      b1b_fdb_add (fdbOfList ds) d = fdbOfList ds := by
  have hsorted : FdbSorted (fdbOfList ds) := fold_fdb_sorted ds [] (by simp)
  constructor
  · have hnd : (fdbKeys (fdbOfList ds)).Nodup := sorted_fdb_keys_nodup hsorted
    have hset : (fdbKeys (fdbOfList ds)).toFinset =
        (ds.map b1b_dst_u64).toFinset := by
      ext k
      simp only [List.mem_toFinset]
      rw [show fdbOfList ds = ds.foldl b1b_fdb_add [] from rfl, fold_fdb_keys]
      simp [fdbKeys]
    calc (fdbOfList ds).length
        = (fdbKeys (fdbOfList ds)).length := by simp [fdbKeys]
      _ = (fdbKeys (fdbOfList ds)).toFinset.card :=
          (List.toFinset_card_of_nodup hnd).symm
      _ = (ds.map b1b_dst_u64).toFinset.card := by rw [hset]
  · intro d hd
    exact fdb_add_of_mem hsorted hd

/-- Witness for C4 at a concrete input: inserting `(vlan 0, 01:..:00)`
twice and `(vlan 7, 01:..:00)` once yields two entries, and re-adding the
duplicate leaves the tree unchanged. -/
theorem fdb_uniqueness_witness :
    (fdbOfList [⟨0, [1, 0, 0, 0, 0, 0]⟩, ⟨7, [1, 0, 0, 0, 0, 0]⟩,
        ⟨0, [1, 0, 0, 0, 0, 0]⟩]).length =
      ([⟨0, [1, 0, 0, 0, 0, 0]⟩, ⟨7, [1, 0, 0, 0, 0, 0]⟩,
        (⟨0, [1, 0, 0, 0, 0, 0]⟩ : Dst)].map b1b_dst_u64).toFinset.card ∧
    b1b_fdb_add (fdbOfList [⟨0, [1, 0, 0, 0, 0, 0]⟩, ⟨7, [1, 0, 0, 0, 0, 0]⟩,
        ⟨0, [1, 0, 0, 0, 0, 0]⟩]) ⟨0, [1, 0, 0, 0, 0, 0]⟩ =
      fdbOfList [⟨0, [1, 0, 0, 0, 0, 0]⟩, ⟨7, [1, 0, 0, 0, 0, 0]⟩,
        ⟨0, [1, 0, 0, 0, 0, 0]⟩] :=
  ⟨(fdb_uniqueness _).1,
   (fdb_uniqueness _).2 ⟨0, [1, 0, 0, 0, 0, 0]⟩ (by decide)⟩

theorem land_of_lt_65536 (v k : Nat) (hv : v < 65536) :
    v &&& (65536 * k) = 0 := by
  apply Nat.eq_of_testBit_eq
  intro i
  rw [Nat.testBit_land, Nat.zero_testBit]
  by_cases hi : i < 16
  · have h2 : (65536 * k).testBit i = false := by
      have h1 : 65536 * k = k <<< 16 := by
        rw [Nat.shiftLeft_eq]; ring
      rw [h1, Nat.testBit_shiftLeft]
      simp [Nat.not_le.mpr hi]
    simp [h2]
  · have h2 : v.testBit i = false := by
      apply Nat.testBit_eq_false_of_lt
      calc v < 65536 := hv
        _ = 2 ^ 16 := by norm_num
        _ ≤ 2 ^ i := Nat.pow_le_pow_right (by norm_num) (Nat.not_lt.mp hi)
    simp [h2]

theorem mac_nonzero_of_mask {d : Dst}
    (h : b1b_dst_u64 d &&& b1b_mac_mask ≠ 0) : macU48 d.mac ≠ 0 := by
  intro hz
  apply h
  have : b1b_dst_u64 d = d.vlan % 65536 := by
    simp [b1b_dst_u64, hz]
  rw [this, b1b_mac_mask]
  exact land_of_lt_65536 _ _ (Nat.mod_lt _ (by norm_num))

theorem br_cb_done {ifx : Int} {t : List Dst} {m : NdMsg}
    (h3 : m.nlmsg_type = 3) : b1b_br_fdb_msg_cb ifx t m = (false, t) := by
  simp [b1b_br_fdb_msg_cb, h3]

theorem br_cb_other {ifx : Int} {t : List Dst} {m : NdMsg}
    (h3 : m.nlmsg_type ≠ 3) (h28 : m.nlmsg_type ≠ 28) :
    b1b_br_fdb_msg_cb ifx t m = (true, t) := by
  simp [b1b_br_fdb_msg_cb, if_neg h3, if_pos h28]

theorem br_cb_skip {ifx : Int} {t : List Dst} {m : NdMsg}
    (h3 : m.nlmsg_type ≠ 3) (h28 : m.nlmsg_type = 28)
    (hskip : m.ndm_ifindex = ifx ∨ m.ndm_state &&& 0x80 ≠ 0) :
    b1b_br_fdb_msg_cb ifx t m = (true, t) := by
  simp [b1b_br_fdb_msg_cb, if_neg h3, if_neg (not_not_intro h28),
    if_pos hskip]

theorem br_cb_zero {ifx : Int} {t : List Dst} {m : NdMsg}
    (h3 : m.nlmsg_type ≠ 3) (h28 : m.nlmsg_type = 28)
    (hskip : ¬(m.ndm_ifindex = ifx ∨ m.ndm_state &&& 0x80 ≠ 0))
    (hmask : b1b_dst_u64 (extractNdDst m) &&& b1b_mac_mask = 0) :
    b1b_br_fdb_msg_cb ifx t m = (true, t) := by
  simp only [b1b_br_fdb_msg_cb, if_neg h3, if_neg (not_not_intro h28),
    if_neg hskip, if_pos hmask]

theorem br_cb_add {ifx : Int} {t : List Dst} {m : NdMsg}
    (h3 : m.nlmsg_type ≠ 3) (h28 : m.nlmsg_type = 28)
    (hskip : ¬(m.ndm_ifindex = ifx ∨ m.ndm_state &&& 0x80 ≠ 0))
    (hmask : b1b_dst_u64 (extractNdDst m) &&& b1b_mac_mask ≠ 0) :
    b1b_br_fdb_msg_cb ifx t m = (true, b1b_fdb_add t (extractNdDst m)) := by
  simp only [b1b_br_fdb_msg_cb, if_neg h3, if_neg (not_not_intro h28),
    if_neg hskip, if_neg hmask]

theorem runBrFdbDump_cons (ifx : Int) (m : NdMsg) (r : List NdMsg)
    (t : List Dst) :
    runBrFdbDump ifx (m :: r) t =
      match b1b_br_fdb_msg_cb ifx t m with
      | (true, u) => runBrFdbDump ifx r u
      | (false, u) => u := rfl

theorem runBrFdbDump_provenance (ifx : Int) (msgs : List NdMsg) :
    ∀ (t : List Dst) (d : Dst), d ∈ runBrFdbDump ifx msgs t →
      d ∈ t ∨ ∃ m ∈ msgs, m.nlmsg_type = 28 ∧ m.ndm_ifindex ≠ ifx ∧
        m.ndm_state &&& 0x80 = 0 ∧ extractNdDst m = d ∧
        b1b_dst_u64 d &&& b1b_mac_mask ≠ 0 := by
  induction msgs with
  | nil => intro t d hd; exact Or.inl hd
  | cons m r ih =>
    intro t d hd
    rw [runBrFdbDump_cons] at hd
    by_cases h3 : m.nlmsg_type = 3
    · rw [br_cb_done h3] at hd
      exact Or.inl hd
    · by_cases h28 : m.nlmsg_type = 28
      · by_cases hskip : m.ndm_ifindex = ifx ∨ m.ndm_state &&& 0x80 ≠ 0
        · rw [br_cb_skip h3 h28 hskip] at hd
          rcases ih t d hd with h | ⟨mm, hmm, hrest⟩
          · exact Or.inl h
          · exact Or.inr ⟨mm, List.mem_cons_of_mem _ hmm, hrest⟩
        · by_cases hmask :
              b1b_dst_u64 (extractNdDst m) &&& b1b_mac_mask = 0
          · rw [br_cb_zero h3 h28 hskip hmask] at hd
            rcases ih t d hd with h | ⟨mm, hmm, hrest⟩
            · exact Or.inl h
            · exact Or.inr ⟨mm, List.mem_cons_of_mem _ hmm, hrest⟩
          · rw [br_cb_add h3 h28 hskip hmask] at hd
            rcases ih _ d hd with h | ⟨mm, hmm, hrest⟩
            · rcases mem_fdb_add h with h | h
              · exact Or.inl h
              · push_neg at hskip
                refine Or.inr ⟨m, List.mem_cons_self _ _,
                  h28, hskip.1, by simpa using hskip.2, h.symm, ?_⟩
                rw [h]; exact hmask
            · exact Or.inr ⟨mm, List.mem_cons_of_mem _ hmm, hrest⟩
      · rw [br_cb_other h3 h28] at hd
        rcases ih t d hd with h | ⟨mm, hmm, hrest⟩
        · exact Or.inl h
        · exact Or.inr ⟨mm, List.mem_cons_of_mem _ hmm, hrest⟩

/-- C6: every destination present after a native-bridge FDB dump comes
from some `RTM_NEWNEIGH` message whose `ndm_ifindex` differs from the
bond's `ifindex` and whose state has no `NUD_PERMANENT` flag, and no
destination has an all-zero MAC. -/
theorem br_fdb_filtering (ifx : Int) (msgs : List NdMsg) (d : Dst)
    (hd : d ∈ runBrFdbDump ifx msgs []) :
    macU48 d.mac ≠ 0 ∧
    ∃ m ∈ msgs, m.nlmsg_type = 28 ∧ m.ndm_ifindex ≠ ifx ∧
      m.ndm_state &&& 0x80 = 0 ∧ extractNdDst m = d := by
  rcases runBrFdbDump_provenance ifx msgs [] d hd with h | ⟨m, hm, h28, hifx,
    hperm, hext, hmask⟩
  · cases h
  · exact ⟨mac_nonzero_of_mask hmask, m, hm, h28, hifx, hperm, hext⟩

/-- Witness for C6 at a concrete dump: one valid remote entry
(`ifindex 7`, VLAN 5, MAC `02:..:01` against a bond with `ifindex 4`). -/
theorem br_fdb_filtering_witness :
    macU48 (Dst.mk 5 [2, 0, 0, 0, 0, 1]).mac ≠ 0 ∧
    ∃ m ∈ [NdMsg.mk 28 7 0 [NdAttr.ndaVlan 5,
        NdAttr.lladdr [2, 0, 0, 0, 0, 1]]],
      m.nlmsg_type = 28 ∧ m.ndm_ifindex ≠ 4 ∧ m.ndm_state &&& 0x80 = 0 ∧
      extractNdDst m = ⟨5, [2, 0, 0, 0, 0, 1]⟩ :=
  br_fdb_filtering 4
    [NdMsg.mk 28 7 0 [NdAttr.ndaVlan 5, NdAttr.lladdr [2, 0, 0, 0, 0, 1]]]
    ⟨5, [2, 0, 0, 0, 0, 1]⟩ (by decide)

/-- C3 (counterexample): the native FDB reader does **not** exclude the
broadcast MAC.  A non-permanent neighbor entry for
`ff:ff:ff:ff:ff:ff` on another port passes every filter in
`b1b_br_fdb_msg_cb` and lands in the FDB set. -/
theorem br_fdb_broadcast_not_excluded :
    runBrFdbDump 4
      [NdMsg.mk 28 7 0 [NdAttr.lladdr [255, 255, 255, 255, 255, 255]]] []
      = [⟨0, [255, 255, 255, 255, 255, 255]⟩] := by
  decide

/-- C3 (amended): after a native dump no destination has the all-zero
MAC — that is the only MAC-value filter the reader applies (the broadcast
MAC is *not* excluded, as a separately proved concrete dump with a
broadcast-MAC neighbor entry shows). -/
theorem br_fdb_zero_mac_excluded (ifx : Int) (msgs : List NdMsg) (d : Dst)
    (hd : d ∈ runBrFdbDump ifx msgs []) :
    macU48 d.mac ≠ 0 := by
  rcases runBrFdbDump_provenance ifx msgs [] d hd with h | ⟨_, _, _, _, _, _,
    hmask⟩
  · cases h
  · exact mac_nonzero_of_mask hmask

/-- Witness for the amended C3 at a concrete dump. -/
theorem br_fdb_zero_mac_excluded_witness :
    macU48 (Dst.mk 0 [255, 255, 255, 255, 255, 255]).mac ≠ 0 :=
  br_fdb_zero_mac_excluded 4
    [NdMsg.mk 28 7 0 [NdAttr.lladdr [255, 255, 255, 255, 255, 255]]]
    ⟨0, [255, 255, 255, 255, 255, 255]⟩ (by decide)

theorem macU48_inj : ∀ l1 l2 : List Nat, l1.length = l2.length →
    (∀ x ∈ l1, x < 256) → (∀ x ∈ l2, x < 256) →
    macU48 l1 = macU48 l2 → l1 = l2 := by
  intro l1
  induction l1 with
  | nil =>
    intro l2 hl _ _ _
    exact (List.length_eq_zero.mp hl.symm).symm ▸ rfl
  | cons a r ih =>
    intro l2 hl hb1 hb2 hv
    match l2 with
    | [] => cases hl
    | b :: r2 =>
      have ha : a < 256 := hb1 a (by simp)
      have hbb : b < 256 := hb2 b (by simp)
      simp only [macU48, Nat.mod_eq_of_lt ha, Nat.mod_eq_of_lt hbb] at hv
      have hab : a = b ∧ macU48 r = macU48 r2 := by omega
      have := ih r2 (by simpa using hl) (fun x hx => hb1 x (by simp [hx]))
        (fun x hx => hb2 x (by simp [hx])) hab.2
      rw [hab.1, this]

theorem dst_u64_inj {d e : Dst} (hd : DstNorm d) (he : DstNorm e)
    (h : b1b_dst_u64 d = b1b_dst_u64 e) : d = e := by
  rcases hd with ⟨hdv, hdl, hdb⟩
  rcases he with ⟨hev, hel, heb⟩
  simp only [b1b_dst_u64, Nat.mod_eq_of_lt hdv, Nat.mod_eq_of_lt hev] at h
  have hsplit : d.vlan = e.vlan ∧ macU48 d.mac = macU48 e.mac := by omega
  have hmac := macU48_inj d.mac e.mac (hdl.trans hel.symm) hdb heb hsplit.2
  cases d; cases e
  simp_all

theorem fdb_add_mem_self {t : List Dst} {d : Dst}
    (ht : ∀ e ∈ t, DstNorm e) (hd : DstNorm d) : d ∈ b1b_fdb_add t d := by
  induction t with
  | nil => simp [b1b_fdb_add]
  | cons x r ih =>
    by_cases h1 : b1b_dst_u64 d < b1b_dst_u64 x
    · simp [b1b_fdb_add, if_pos h1]
    · by_cases h2 : b1b_dst_u64 d = b1b_dst_u64 x
      · have : d = x := dst_u64_inj hd (ht x (by simp)) h2
        simp [b1b_fdb_add, if_neg h1, if_pos h2, this]
      · simp only [b1b_fdb_add, if_neg h1, if_neg h2, List.mem_cons]
        exact Or.inr (ih (fun e he => ht e (by simp [he])))

theorem norm_fdb_add {t : List Dst} {d e : Dst}
    (ht : ∀ x ∈ t, DstNorm x) (hd : DstNorm d)
    (he : e ∈ b1b_fdb_add t d) : DstNorm e := by
  rcases mem_fdb_add he with h | h
  · exact ht e h
  · exact h ▸ hd

theorem readMacRest_shape {n : Nat} :
    ∀ {l : List Char} {vs : List Nat} {l2 : List Char},
      readMacRest n l = some (vs, l2) →
      vs.length = n ∧ ∀ x ∈ vs, x < 256 := by
  induction n with
  | zero =>
    intro l vs l2 h
    simp only [readMacRest] at h
    cases h
    exact ⟨rfl, by simp⟩
  | succ k ih =>
    intro l vs l2 h
    simp only [readMacRest] at h
    split at h
    · cases h
    · split at h
      · cases h
      · split at h
        · cases h
        · cases h
          rename_i hrest
          rcases ih (by assumption) with ⟨hlen, hbd⟩
          refine ⟨by simp [hlen], ?_⟩
          intro x hx
          rcases List.mem_cons.mp hx with h | h
          · subst h; exact Nat.mod_lt _ (by norm_num)
          · exact hbd x h

theorem readMac_shape {l : List Char} {vs : List Nat} {l2 : List Char}
    (h : readMac l = some (vs, l2)) :
    vs.length = 6 ∧ ∀ x ∈ vs, x < 256 := by
  simp only [readMac] at h
  split at h
  · cases h
  · split at h
    · cases h
    · cases h
      rename_i hrest
      rcases readMacRest_shape (by assumption) with ⟨hlen, hbd⟩
      refine ⟨by simp [hlen], ?_⟩
      intro x hx
      rcases List.mem_cons.mp hx with h | h
      · subst h; exact Nat.mod_lt _ (by norm_num)
      · exact hbd x h

theorem parseFdbLine_norm {l : List Char} {op : Nat} {d : Dst}
    (h : parseFdbLine l = some (op, d)) : DstNorm d := by
  simp only [parseFdbLine] at h
  split at h
  · cases h
  · split at h
    · cases h
    · split at h
      · cases h
      · cases h
        rename_i hmac
        rcases readMac_shape (by assumption) with ⟨hlen, hbd⟩
        exact ⟨Nat.mod_lt _ (by norm_num), hlen, hbd⟩

theorem ovsFdbRows_provenance (ofp : Nat) (rows : List (List Char)) :
    ∀ (t F : List Dst), ovsFdbRows ofp rows t = some F → ∀ d ∈ F,
      d ∈ t ∨ ∃ l ∈ rows, startsWithLocal l = false ∧
        ∃ op, parseFdbLine l = some (op, d) ∧ op ≠ ofp := by
  induction rows with
  | nil =>
    intro t F hF d hd
    simp only [ovsFdbRows] at hF
    cases hF
    exact Or.inl hd
  | cons l0 r ih =>
    intro t F hF d hd
    simp only [ovsFdbRows] at hF
    by_cases hloc : startsWithLocal l0
    · rw [if_pos hloc] at hF
      rcases ih t F hF d hd with h | ⟨l, hl, hrest⟩
      · exact Or.inl h
      · exact Or.inr ⟨l, List.mem_cons_of_mem _ hl, hrest⟩
    · rw [if_neg hloc] at hF
      rcases hparse : parseFdbLine l0 with _ | ⟨op0, d0⟩
      · rw [hparse] at hF; cases hF
      · rw [hparse] at hF
        have hF2 : ovsFdbRows ofp r
            (if op0 ≠ ofp then b1b_fdb_add t d0 else t) = some F := hF
        by_cases hop : op0 ≠ ofp
        · rw [if_pos hop] at hF2
          rcases ih _ F hF2 d hd with h | ⟨l, hl, hrest⟩
          · rcases mem_fdb_add h with h | h
            · exact Or.inl h
            · exact Or.inr ⟨l0, List.mem_cons_self _ _,
                by simpa using hloc, op0, by rw [hparse, h], hop⟩
          · exact Or.inr ⟨l, List.mem_cons_of_mem _ hl, hrest⟩
        · rw [if_neg hop] at hF2
          rcases ih t F hF2 d hd with h | ⟨l, hl, hrest⟩
          · exact Or.inl h
          · exact Or.inr ⟨l, List.mem_cons_of_mem _ hl, hrest⟩

theorem ovsFdbRows_mono (ofp : Nat) (rows : List (List Char)) :
    ∀ (t F : List Dst), ovsFdbRows ofp rows t = some F → ∀ d ∈ t,
      d ∈ F := by
  induction rows with
  | nil =>
    intro t F hF d hd
    simp only [ovsFdbRows] at hF
    cases hF
    exact hd
  | cons l0 r ih =>
    intro t F hF d hd
    simp only [ovsFdbRows] at hF
    by_cases hloc : startsWithLocal l0
    · rw [if_pos hloc] at hF
      exact ih t F hF d hd
    · rw [if_neg hloc] at hF
      rcases hparse : parseFdbLine l0 with _ | ⟨op0, d0⟩
      · rw [hparse] at hF; cases hF
      · rw [hparse] at hF
        have hF2 : ovsFdbRows ofp r
            (if op0 ≠ ofp then b1b_fdb_add t d0 else t) = some F := hF
        by_cases hop : op0 ≠ ofp
        · rw [if_pos hop] at hF2
          exact ih _ F hF2 d (mem_of_mem_fdb hd)
        · rw [if_neg hop] at hF2
          exact ih t F hF2 d hd

theorem ovsFdbRows_inserts (ofp : Nat) (rows : List (List Char)) :
    ∀ (t F : List Dst), (∀ e ∈ t, DstNorm e) →
      ovsFdbRows ofp rows t = some F →
      ∀ l ∈ rows, startsWithLocal l = false →
        ∀ op d, parseFdbLine l = some (op, d) → op ≠ ofp → d ∈ F := by
  induction rows with
  | nil =>
    intro t F _ _ l hl
    cases hl
  | cons l0 r ih =>
    intro t F hnorm hF l hl hloc op d hparse hop
    simp only [ovsFdbRows] at hF
    rcases List.mem_cons.mp hl with hcase | hcase
    · subst hcase
      rw [if_neg (by simp [hloc]), hparse] at hF
      have hF2 : ovsFdbRows ofp r
          (if op ≠ ofp then b1b_fdb_add t d else t) = some F := hF
      rw [if_pos hop] at hF2
      have hd : DstNorm d := parseFdbLine_norm hparse
      exact ovsFdbRows_mono ofp r _ F hF2 d (fdb_add_mem_self hnorm hd)
    · by_cases hloc0 : startsWithLocal l0
      · rw [if_pos hloc0] at hF
        exact ih t F hnorm hF l hcase hloc op d hparse hop
      · rw [if_neg hloc0] at hF
        rcases hparse0 : parseFdbLine l0 with _ | ⟨op0, d0⟩
        · rw [hparse0] at hF; cases hF
        · rw [hparse0] at hF
          have hF2 : ovsFdbRows ofp r
              (if op0 ≠ ofp then b1b_fdb_add t d0 else t) = some F := hF
          by_cases hop0 : op0 ≠ ofp
          · rw [if_pos hop0] at hF2
            have hnorm2 : ∀ e ∈ b1b_fdb_add t d0, DstNorm e :=
              fun e he => norm_fdb_add hnorm (parseFdbLine_norm hparse0) he
            exact ih _ F hnorm2 hF2 l hcase hloc op d hparse hop
          · rw [if_neg hop0] at hF2
            exact ih t F hnorm hF2 l hcase hloc op d hparse hop

/-- C7: after a successful OVS `fdb/show` dump, every destination in F
was parsed from a non-`LOCAL` row whose `ofport` differs from the bond's
`ofport`; and conversely every non-`LOCAL`, well-formed row whose
`ofport` differs from the bond's has its `(vlan, mac)` destination in
F. -/
theorem ovs_fdb_filtering (ofp : Nat) (lines : List (List Char))
    (F : List Dst) (hF : b1b_ovs_get_fdb ofp lines = some F) :
    (∀ d ∈ F, ∃ l ∈ lines.drop 1, startsWithLocal l = false ∧
        ∃ op, parseFdbLine l = some (op, d) ∧ op ≠ ofp) ∧
    (∀ l ∈ lines.drop 1, startsWithLocal l = false →
        ∀ op d, parseFdbLine l = some (op, d) → op ≠ ofp → d ∈ F) := by
  constructor
  · intro d hd
    rcases ovsFdbRows_provenance ofp (lines.drop 1) [] F hF d hd with
      h | h
    · cases h
    · exact h
  · exact ovsFdbRows_inserts ofp (lines.drop 1) [] F (by simp) hF

/-- Witness for C7 at a concrete `fdb/show` dump against OF port 5: the
`LOCAL` row and the own-port row are absent, the row learned on port 9
(VLAN 20, MAC `02:00:00:00:00:cc`) is present. -/
theorem ovs_fdb_filtering_witness :
    b1b_ovs_get_fdb 5
        [fdbShowHeader, fdbShowRowLocal, fdbShowRowOwn, fdbShowRowGood]
      = some [⟨20, [2, 0, 0, 0, 0, 204]⟩] ∧
    (⟨20, [2, 0, 0, 0, 0, 204]⟩ : Dst) ∈ [(⟨20, [2, 0, 0, 0, 0, 204]⟩ : Dst)]
    := by
  refine ⟨by decide, ?_⟩
  exact (ovs_fdb_filtering 5
      [fdbShowHeader, fdbShowRowLocal, fdbShowRowOwn, fdbShowRowGood]
      [⟨20, [2, 0, 0, 0, 0, 204]⟩] (by decide)).2
    fdbShowRowGood (by decide) (by decide) 9 ⟨20, [2, 0, 0, 0, 0, 204]⟩
    (by decide) (by decide)

/-- C1 (code bug): the untagged (`vlan == 0`) frame is **not** 42 bytes.
Because the untagged branch of `b1b_send_garp` assigns `iovs[2].iov_len`
instead of `iovs[1].iov_len` while sending only two iovecs, the very first
untagged frame of the process is 12 bytes (just the two MACs, no ARP
payload at all), and an untagged frame sent after any tagged frame is 16
bytes (MACs plus the first 4 bytes of the ARP segment).  Neither frame has
42 bytes, and the 12-byte frame has no bytes 12–13 to hold `0x0806`. -/
theorem garp_untagged_frame_not_42_bytes :
    (b1b_send_garp true iovInit ⟨0, [0x02, 0xaa, 0, 0, 0, 0x01]⟩).1.length
        = 12 ∧
    (b1b_send_garp true
        (b1b_send_garp true iovInit ⟨10, [0x02, 0xaa, 0, 0, 0, 0x02]⟩).2
        ⟨0, [0x02, 0xaa, 0, 0, 0, 0x01]⟩).1.length = 16 := by
  constructor <;> rfl

/-- C2 (code bug): on a little-endian host the tagged frame is 46 bytes
with `0x8100` at bytes 12–13 and `0x0806` at bytes 16–17 as claimed, but
bytes 14–15 carry the VID in *host* byte order (`vlan.vid = dst.vlan` has
no `htons`), so for VID 10 they are `0x0a 0x00` rather than
`htons(10) = 0x00 0x0a`. -/
theorem garp_tagged_vid_not_network_order :
    ((b1b_send_garp true iovInit ⟨10, [0x02, 0xaa, 0, 0, 0, 0x02]⟩).1.length
        = 46 ∧
     ((b1b_send_garp true iovInit
        ⟨10, [0x02, 0xaa, 0, 0, 0, 0x02]⟩).1.drop 12).take 6
        = [0x81, 0x00, 0x0a, 0x00, 0x08, 0x06]) ∧
    ((b1b_send_garp true iovInit
        ⟨10, [0x02, 0xaa, 0, 0, 0, 0x02]⟩).1.drop 14).take 2 ≠ u16be 10 := by
  exact ⟨⟨by rfl, by rfl⟩, by decide⟩

theorem resp_get_elim {resp : OvsJson} {name : List Char} {types : List JType}
    {m : OvsJson} (h : b1b_json_resp_get resp name types = some m) :
    jsonGet resp name = some m ∧ jtype m ∈ types := by
  simp only [b1b_json_resp_get] at h
  rcases hg : jsonGet resp name with _ | x
  · rw [hg] at h; cases h
  · rw [hg] at h
    have h2 : (if jtype x ∈ types then some x else none) = some m := h
    by_cases ht : jtype x ∈ types
    · rw [if_pos ht] at h2
      have hxm : x = m := Option.some.inj h2
      subst hxm
      exact ⟨rfl, ht⟩
    · rw [if_neg ht] at h2; cases h2

theorem resp_get_intro {resp : OvsJson} {name : List Char} {types : List JType}
    {m : OvsJson} (hg : jsonGet resp name = some m) (ht : jtype m ∈ types) :
    b1b_json_resp_get resp name types = some m := by
  simp [b1b_json_resp_get, hg, ht]

theorem selectMember_elim {resp : OvsJson} {member : OvsJson} {result : Bool}
    (h : rpcSelectMember resp = some (member, result)) :
    ∃ errm, jsonGet resp keyError = some errm ∧
      ((result = false ∧ member = errm ∧ jtype errm = JType.tstr) ∨
       (result = true ∧ jtype errm = JType.tnull ∧
         jsonGet resp keyResult = some member ∧ jtype member = JType.tstr)) := by
  simp only [rpcSelectMember] at h
  rcases he : b1b_json_resp_get resp keyError [JType.tstr, JType.tnull]
      with _ | errm
  · rw [he] at h; cases h
  · rw [he] at h
    rcases resp_get_elim he with ⟨heg, het⟩
    simp only [List.mem_cons, List.not_mem_nil, or_false] at het
    have h2 : (if jtype errm = JType.tstr then some (errm, false)
        else match b1b_json_resp_get resp keyResult [JType.tstr] with
          | none => none
          | some resm => some (resm, true)) = some (member, result) := h
    by_cases hstr : jtype errm = JType.tstr
    · rw [if_pos hstr] at h2
      have hp : (errm, false) = (member, result) := Option.some.inj h2
      have hm : errm = member := congrArg Prod.fst hp
      have hres : false = result := congrArg Prod.snd hp
      exact ⟨errm, heg, Or.inl ⟨hres.symm, hm.symm, hstr⟩⟩
    · rw [if_neg hstr] at h2
      have hnull : jtype errm = JType.tnull := by tauto
      rcases hr : b1b_json_resp_get resp keyResult [JType.tstr] with _ | resm
      · rw [hr] at h2; cases h2
      · rw [hr] at h2
        have hp : (resm, true) = (member, result) := Option.some.inj h2
        have hm : resm = member := congrArg Prod.fst hp
        have hres : true = result := congrArg Prod.snd hp
        rcases resp_get_elim hr with ⟨hrg, hrt⟩
        simp only [List.mem_cons, List.not_mem_nil, or_false] at hrt
        exact ⟨errm, heg, Or.inr ⟨hres.symm, hnull, hm ▸ hrg, hm ▸ hrt⟩⟩

theorem selectMember_str {resp errm : OvsJson}
    (hg : jsonGet resp keyError = some errm) (hs : jtype errm = JType.tstr) :
    rpcSelectMember resp = some (errm, false) := by
  have he : b1b_json_resp_get resp keyError [JType.tstr, JType.tnull]
      = some errm := resp_get_intro hg (by simp [hs])
  simp only [rpcSelectMember, he]
  rw [if_pos hs]

theorem selectMember_null {resp errm resm : OvsJson}
    (hg : jsonGet resp keyError = some errm) (hn : jtype errm = JType.tnull)
    (hr : jsonGet resp keyResult = some resm) (ht : jtype resm = JType.tstr) :
    rpcSelectMember resp = some (resm, true) := by
  have he : b1b_json_resp_get resp keyError [JType.tstr, JType.tnull]
      = some errm := resp_get_intro hg (by simp [hn])
  have hres : b1b_json_resp_get resp keyResult [JType.tstr]
      = some resm := resp_get_intro hr (by simp [ht])
  simp only [rpcSelectMember, he, hres]
  rw [if_neg (by simp [hn])]

theorem ovs_rpc_recv_fatal_iff (bufsize reqid : Nat) :
    (∀ parsed, b1b_ovs_rpc_recv bufsize (some (bufsize, parsed)) reqid
        = none) ∧
    (∀ (bytes : Nat) (resp idm : OvsJson), jsonGet resp keyId = some idm →
        jtype idm = JType.tint → jsonGetUint64 idm ≠ reqid →
        b1b_ovs_rpc_recv bufsize (some (bytes, some resp)) reqid = none) ∧
    (∀ rr, (∃ b, b1b_ovs_rpc_recv bufsize rr reqid = some b) ↔
        rpcRespWellFormed bufsize rr reqid) := by
  refine ⟨?_, ?_, ?_⟩
  · intro parsed
    simp [b1b_ovs_rpc_recv]
  · intro bytes resp idm hget htint hne
    simp only [b1b_ovs_rpc_recv]
    by_cases hb : bytes = bufsize
    · rw [if_pos hb]
    · rw [if_neg hb]
      show rpcOnResp resp reqid = none
      simp only [rpcOnResp]
      by_cases hobj : jtype resp = JType.tobj
      · rw [if_neg (not_not_intro hobj),
          resp_get_intro hget (by simp [htint])]
        show (if jsonGetUint64 idm ≠ reqid then none else _) = none
        rw [if_pos hne]
      · rw [if_pos hobj]
  · intro rr
    constructor
    · rintro ⟨b, hb⟩
      rcases rr with _ | ⟨bytes, parsed⟩
      · simp [b1b_ovs_rpc_recv] at hb
      · simp only [b1b_ovs_rpc_recv] at hb
        split at hb
        · cases hb
        · rename_i hbytes
          rcases parsed with _ | resp
          · cases hb
          · have hor : rpcOnResp resp reqid = some b := hb
            simp only [rpcOnResp] at hor
            split at hor
            · cases hor
            · rename_i hobj
              rw [not_not] at hobj
              rcases hid : b1b_json_resp_get resp keyId [JType.tint]
                  with _ | idm
              · rw [hid] at hor; cases hor
              · rw [hid] at hor
                have hor2 : (if jsonGetUint64 idm ≠ reqid then none
                    else match rpcSelectMember resp with
                      | none => none
                      | some (member, result) =>
                        if jsonGetStringLen member = 0 then none
                        else some result) = some b := hor
                split at hor2
                · cases hor2
                · rename_i hidv
                  rw [not_not] at hidv
                  rcases hsel : rpcSelectMember resp with _ | ⟨member, result⟩
                  · rw [hsel] at hor2; cases hor2
                  · rw [hsel] at hor2
                    have hor3 : (if jsonGetStringLen member = 0 then none
                        else some result) = some b := hor2
                    split at hor3
                    · cases hor3
                    · rename_i hlen
                      rcases resp_get_elim hid with ⟨hidg, hidt⟩
                      simp only [List.mem_cons, List.not_mem_nil, or_false]
                        at hidt
                      rcases selectMember_elim hsel with ⟨errm, heg, hcase⟩
                      refine ⟨bytes, resp, rfl, hbytes, hobj,
                        ⟨idm, hidg, hidt, hidv⟩, errm, heg, ?_⟩
                      rcases hcase with ⟨_, hm, hstr⟩ | ⟨_, hnull, hrg, hrt⟩
                      · exact Or.inl ⟨hstr, hm ▸ hlen⟩
                      · exact Or.inr ⟨hnull, member, hrg, hrt, hlen⟩
    · rintro ⟨bytes, resp, hrr, hbytes, hobj, ⟨idm, hidg, hidt, hidv⟩,
        errm, herrg, hcase⟩
      subst hrr
      simp only [b1b_ovs_rpc_recv, if_neg hbytes]
      show ∃ b, rpcOnResp resp reqid = some b
      simp only [rpcOnResp, if_neg (not_not_intro hobj),
        resp_get_intro hidg (by simp [hidt] : jtype idm ∈ [JType.tint])]
      show ∃ b, (if jsonGetUint64 idm ≠ reqid then none else _) = some b
      rw [if_neg (not_not_intro hidv)]
      rcases hcase with ⟨hstr, hlen⟩ | ⟨hnull, resm, hresg, hrest, hlen⟩
      · rw [selectMember_str herrg hstr]
        show ∃ b, (if jsonGetStringLen errm = 0 then none else some false)
            = some b
        rw [if_neg hlen]
        exact ⟨false, rfl⟩
      · rw [selectMember_null herrg hnull hresg hrest]
        show ∃ b, (if jsonGetStringLen resm = 0 then none else some true)
            = some b
        rw [if_neg hlen]
        exact ⟨true, rfl⟩

theorem bondCmpLe_iff (a b : BondInfo) :
    bondCmpLe a b ↔ a.ifindex ≤ b.ifindex := by
  unfold bondCmpLe b1b_bs_ifindex_cmp
  split_ifs <;> omega

/-- Witness for C9 at concrete inputs against request id 7 and an 8 KiB
buffer: a buffer-filling read is fatal, a response with id 9 is fatal,
and the well-formed 100-byte response with id 7 returns normally. -/
theorem ovs_rpc_recv_witness :
    b1b_ovs_rpc_recv 8192 (some (8192, some rpcRespGood)) 7 = none ∧
    b1b_ovs_rpc_recv 8192 (some (100, some rpcRespBad)) 7 = none ∧
    ∃ b, b1b_ovs_rpc_recv 8192 (some (100, some rpcRespGood)) 7 = some b :=
  ⟨(ovs_rpc_recv_fatal_iff 8192 7).1 (some rpcRespGood),
   (ovs_rpc_recv_fatal_iff 8192 7).2.1 100 rpcRespBad (OvsJson.jint 9)
     rfl rfl (by decide),
   ((ovs_rpc_recv_fatal_iff 8192 7).2.2
       (some (100, some rpcRespGood))).mpr
     ⟨100, rpcRespGood, rfl, by decide, rfl,
      ⟨OvsJson.jint 7, rfl, rfl, rfl⟩,
      OvsJson.jnull, rfl,
      Or.inr ⟨rfl, OvsJson.jstr ['o', 'k', '\n'], rfl, rfl, by decide⟩⟩⟩

theorem qsortBonds_sorted (l : List BondInfo) :
    (qsortBonds l).Pairwise (fun a b => a.ifindex ≤ b.ifindex) := by
  have h := List.sorted_insertionSort bondCmpLe l
  exact h.imp (fun hab => (bondCmpLe_iff _ _).mp hab)

theorem qsortBonds_perm (l : List BondInfo) : (qsortBonds l).Perm l :=
  List.perm_insertionSort bondCmpLe l

theorem qsortBonds_strict (l : List BondInfo)
    (hnd : (l.map BondInfo.ifindex).Nodup) :
    (qsortBonds l).Pairwise (fun a b => a.ifindex < b.ifindex) := by
  have hle := qsortBonds_sorted l
  have hnd2 : ((qsortBonds l).map BondInfo.ifindex).Nodup := by
    exact ((qsortBonds_perm l).map BondInfo.ifindex).nodup_iff.mpr hnd
  have hne : (qsortBonds l).Pairwise
      (fun a b => a.ifindex ≠ b.ifindex) := by
    rw [List.Nodup, List.pairwise_map] at hnd2
    exact hnd2
  exact (hle.and hne).imp (fun h => lt_of_le_of_ne h.1 h.2)

theorem nodup_map_filter {l : List BondInfo} (p : BondInfo → Bool)
    (hnd : (l.map BondInfo.ifindex).Nodup) :
    ((l.filter p).map BondInfo.ifindex).Nodup :=
  hnd.sublist ((List.filter_sublist l).map BondInfo.ifindex)

/-- C5 (amended): after `b1b_parse_bonds` or `b1b_detect_bonds` returns
successfully, the inventory is sorted by `ifindex` in non-decreasing
order, and it is *strictly* increasing whenever the input links have
pairwise-distinct ifindexes.  (Without that hypothesis strictness can
fail: the same bond name given twice on the command line yields two equal
ifindexes.) -/
theorem bond_inventory_sorted (input out : List BondInfo)
    (hrun : b1b_parse_bonds input = some out ∨
      b1b_detect_bonds input = some out) :
    out.Pairwise (fun a b => a.ifindex ≤ b.ifindex) ∧
    ((input.map BondInfo.ifindex).Nodup →
      out.Pairwise (fun a b => a.ifindex < b.ifindex)) := by
  rcases hrun with h | h
  · simp only [b1b_parse_bonds] at h
    split at h
    · cases h
      exact ⟨qsortBonds_sorted input, fun hnd => qsortBonds_strict input hnd⟩
    · cases h
  · simp only [b1b_detect_bonds] at h
    split at h
    · cases h
    · cases h
      constructor
      · exact qsortBonds_sorted _
      · intro hnd
        apply qsortBonds_strict
        apply nodup_map_filter
        rw [List.map_reverse, List.nodup_reverse]
        exact nodup_map_filter _ hnd

theorem parse_bonds_dup_counterexample :
    b1b_parse_bonds [bondDup, bondDup] = some [bondDup, bondDup] ∧
    ¬ ([bondDup, bondDup].Pairwise
        (fun a b : BondInfo => a.ifindex < b.ifindex)) := by
  constructor
  · decide
  · intro h
    have := (List.pairwise_cons.mp h).1 bondDup (by simp)
    simp [bondDup] at this

theorem bond_inventory_sorted_witness :
    ([bondIx3, bondDup].Pairwise (fun a b : BondInfo => a.ifindex ≤ b.ifindex)) ∧
    ([bondIx3, bondDup].Pairwise (fun a b : BondInfo => a.ifindex < b.ifindex)) := by
  have h := bond_inventory_sorted [bondDup, bondIx3] [bondIx3, bondDup]
    (Or.inl (by decide))
  exact ⟨h.1, h.2 (by decide)⟩

theorem map_eta_self (l : List McBond) (f : McBond → McBond)
    (h : ∀ b ∈ l, f b = b) : l.map f = l := by
  induction l with
  | nil => rfl
  | cons x r ih =>
    simp only [List.map_cons]
    rw [h x (by simp), ih (fun b hb => h b (by simp [hb]))]

theorem mc_msg_cb_map (l : List McBond) (m : McMsg) :
    b1b_mc_msg_cb l m =
      l.map (fun b => ⟨b.ifindex, elemStep b.ifindex b.failover_event m⟩) := by
  by_cases h16 : m.nlmsg_type = 16
  · simp only [b1b_mc_msg_cb, if_neg (not_not_intro h16)]
    by_cases hall : l.all (fun b => b.ifindex != m.ifi_index)
    · rw [if_pos hall]
      rw [List.all_eq_true] at hall
      refine (map_eta_self l _ ?_).symm
      intro b hb
      have hne : b.ifindex ≠ m.ifi_index := by simpa using hall b hb
      simp only [elemStep]
      rw [if_neg (by rintro ⟨_, hix⟩; exact hne hix.symm)]
    · rw [if_neg hall]
      apply List.map_congr_left
      intro b _
      by_cases hb : b.ifindex = m.ifi_index
      · rw [if_pos hb]
        simp only [elemStep]
        rw [if_pos (And.intro h16 hb.symm)]
      · rw [if_neg hb]
        simp only [elemStep]
        rw [if_neg (by rintro ⟨_, hix⟩; exact hb hix.symm)]
  · simp only [b1b_mc_msg_cb, if_pos h16]
    refine (map_eta_self l _ ?_).symm
    intro b _
    simp only [elemStep]
    rw [if_neg (by rintro ⟨h1, _⟩; exact h16 h1)]

theorem mc_fold_map (msgs : List McMsg) :
    ∀ l : List McBond, msgs.foldl b1b_mc_msg_cb l =
      l.map (fun b => ⟨b.ifindex, elemFold b.ifindex b.failover_event msgs⟩)
    := by
  induction msgs with
  | nil =>
    intro l
    simp only [List.foldl_nil]
    exact (map_eta_self l _ (fun b _ => rfl)).symm
  | cons m r ih =>
    intro l
    rw [List.foldl_cons, ih, mc_msg_cb_map, List.map_map]
    rfl

theorem process_eq (inv : List McBond) (msgs : List McMsg) :
    b1b_mcast_process inv msgs = (finalOf msgs inv, burstOf msgs inv) := by
  simp only [b1b_mcast_process, mc_fold_map, List.map_map, finalOf, burstOf]
  rfl

theorem attr_run_true (attrs : List McAttr) :
    b1b_mc_attr_run true attrs = true := by
  induction attrs with
  | nil => rfl
  | cons a r ih =>
    cases a with
    | iflaEvent v => simp [b1b_mc_attr_run]
    | mcOther t => simpa [b1b_mc_attr_run] using ih

theorem elemFold_true (ifx : Int) (msgs : List McMsg) :
    elemFold ifx true msgs = true := by
  induction msgs with
  | nil => rfl
  | cons m r ih =>
    simp only [elemFold, List.foldl_cons] at ih ⊢
    have : elemStep ifx true m = true := by
      simp only [elemStep]
      split
      · exact attr_run_true m.attrs
      · rfl
    rw [this]
    exact ih

theorem elemFold_of_mem {ifx : Int} {msgs : List McMsg}
    (h : ∃ m ∈ msgs, m.nlmsg_type = 16 ∧ m.ifi_index = ifx ∧
      b1b_mc_attr_run false m.attrs = true) :
    elemFold ifx false msgs = true := by
  induction msgs with
  | nil => rcases h with ⟨m, hm, _⟩; cases hm
  | cons m0 r ih =>
    rcases h with ⟨m, hm, h16, hifx, hrun⟩
    rcases List.mem_cons.mp hm with hcase | hcase
    · subst hcase
      simp only [elemFold, List.foldl_cons]
      have : elemStep ifx false m = true := by
        simp only [elemStep, if_pos (And.intro h16 hifx)]
        exact hrun
      rw [this]
      exact elemFold_true ifx r
    · simp only [elemFold, List.foldl_cons]
      rcases hstep : elemStep ifx false m0 with _ | _
      · exact ih ⟨m, hcase, h16, hifx, hrun⟩
      · exact elemFold_true ifx r

theorem burst_count (msgs : List McMsg) (b : Int) :
    ∀ inv : List McBond, (burstOf msgs inv).count b =
      if elemFold b false msgs = true
      then (inv.map McBond.ifindex).count b else 0 := by
  intro inv
  induction inv with
  | nil => simp [burstOf, finalOf]
  | cons b0 r ih =>
    simp only [burstOf, finalOf, List.map_cons, List.filter_cons] at ih ⊢
    by_cases hflag : elemFold b0.ifindex false msgs = true
    · rw [if_pos (by simpa using hflag)]
      simp only [List.map_cons, List.count_cons]
      by_cases hb : b0.ifindex = b
      · rw [hb] at hflag
        rw [ih, if_pos hflag, if_pos hflag]
      · rw [ih]
        by_cases hf : elemFold b false msgs = true
        · rw [if_pos hf, if_pos hf]
        · rw [if_neg hf, if_neg hf]
          simp [hb]
    · rw [if_neg (by simpa using hflag)]
      rw [ih]
      by_cases hf : elemFold b false msgs = true
      · rw [if_pos hf, if_pos hf]
        have hb : b0.ifindex ≠ b := by
          intro h; rw [h] at hflag; exact hflag hf
        simp [List.count_cons, hb]
      · rw [if_neg hf, if_neg hf]

/-- C8: if at least one bonding-failover multicast message for bond `b`
arrives in a poll cycle, the dispatcher performs exactly one FDB dump
and GARP burst for `b` in that cycle (duplicates are coalesced through
the single `failover_event` flag), and the burst list is computed from
the fully drained inventory state. -/
theorem mcast_event_coalescing (inv : List McBond) (msgs : List McMsg)
    (b : Int) (hnd : (inv.map McBond.ifindex).Nodup)
    (hmem : b ∈ inv.map McBond.ifindex)
    (hev : ∃ m ∈ msgs, m.nlmsg_type = 16 ∧ m.ifi_index = b ∧
      b1b_mc_attr_run false m.attrs = true) :
    ((b1b_mcast_process inv msgs).2).count b = 1 ∧
    (b1b_mcast_process inv msgs).2 = burstOf msgs inv := by
  constructor
  · rw [process_eq]
    show (burstOf msgs inv).count b = 1
    rw [burst_count, if_pos (elemFold_of_mem hev)]
    exact List.count_eq_one_of_mem hnd hmem
  · rw [process_eq]

/-- Witness for C8: two failover messages for bond 7 in one cycle, one
burst. -/
theorem mcast_event_coalescing_witness :
    ((b1b_mcast_process [⟨3, false⟩, ⟨7, false⟩]
        [⟨16, 7, [McAttr.iflaEvent 3]⟩, ⟨16, 7, [McAttr.iflaEvent 3]⟩]).2).count 7
      = 1 :=
  (mcast_event_coalescing [⟨3, false⟩, ⟨7, false⟩]
    [⟨16, 7, [McAttr.iflaEvent 3]⟩, ⟨16, 7, [McAttr.iflaEvent 3]⟩] 7
    (by decide) (by decide)
    ⟨⟨16, 7, [McAttr.iflaEvent 3]⟩, by decide, rfl, rfl, rfl⟩).1

/-- C10: an `RTM_NEWLINK` message whose `ifi_index` matches no bond in
the inventory is ignored: the callback leaves every flag unchanged, and
a poll cycle containing that message behaves exactly like the same
cycle without it. -/
theorem mcast_unmatched_ignored (inv : List McBond) (m : McMsg)
    (hno : ∀ bd ∈ inv, bd.ifindex ≠ m.ifi_index) :
    b1b_mc_msg_cb inv m = inv ∧
    ∀ pre post : List McMsg,
      b1b_mcast_process inv (pre ++ m :: post) =
        b1b_mcast_process inv (pre ++ post) := by
  constructor
  · by_cases h16 : m.nlmsg_type = 16
    · have hall : inv.all (fun b => b.ifindex != m.ifi_index) := by
        rw [List.all_eq_true]
        intro b hb
        simpa using hno b hb
      simp only [b1b_mc_msg_cb, if_neg (not_not_intro h16), if_pos hall]
    · simp only [b1b_mc_msg_cb, if_pos h16]
  · intro pre post
    have hfin : finalOf (pre ++ m :: post) inv
        = finalOf (pre ++ post) inv := by
      apply List.map_congr_left
      intro b hb
      have hstep : elemStep b.ifindex
            (List.foldl (elemStep b.ifindex) false pre) m
          = List.foldl (elemStep b.ifindex) false pre := by
        simp only [elemStep]
        rw [if_neg]
        rintro ⟨_, hix⟩
        exact hno b hb hix.symm
      simp only [elemFold, List.foldl_append, List.foldl_cons, hstep]
    rw [process_eq, process_eq,
      show burstOf (pre ++ m :: post) inv = burstOf (pre ++ post) inv from
        by simp only [burstOf, hfin], hfin]

/-- Witness for C10: a message for unmanaged ifindex 9 changes nothing. -/
theorem mcast_unmatched_ignored_witness :
    b1b_mc_msg_cb [⟨3, false⟩, ⟨7, false⟩] ⟨16, 9, [McAttr.iflaEvent 3]⟩
      = [⟨3, false⟩, ⟨7, false⟩] ∧
    b1b_mcast_process [⟨3, false⟩, ⟨7, false⟩]
        ([⟨16, 3, [McAttr.iflaEvent 3]⟩] ++
          ⟨16, 9, [McAttr.iflaEvent 3]⟩ :: []) =
      b1b_mcast_process [⟨3, false⟩, ⟨7, false⟩]
        ([⟨16, 3, [McAttr.iflaEvent 3]⟩] ++ []) := by
  have h := mcast_unmatched_ignored [⟨3, false⟩, ⟨7, false⟩]
    ⟨16, 9, [McAttr.iflaEvent 3]⟩ (by decide)
  exact ⟨h.1, h.2 [⟨16, 3, [McAttr.iflaEvent 3]⟩] []⟩

end B1b
